import Mathlib

/-!
Verification of the green-thread runtime in `src/green.rs`.

The runtime is embedded as a small-step interpreter: each green thread's
entry routine is a list of operations (`Op`), the process-wide globals
(`CONTEXTS`, `WAITING`, `MESSAGES`, `ID`, `UNUSED_STACK`, `CTX_MAIN`) become
fields of a `State` record, and one step of `runFront` executes the source
code from the currently running thread's next operation through the context
switch it performs (the `set_context` / `switch_context` pair is modelled by
moving `Ctx` records between the queue and the registry; "resuming after
`set_context` returned nonzero" is modelled by the `resumeDrain` /
`pendingRecv` flags that replay the code following the saved point).
Stacks are modelled by allocation numbers; `mprotect`+`dealloc` of a stack
region is recorded in `freed`, and a stack whose `(ptr, layout)` pair is
overwritten in `UNUSED_STACK` before `rm_unused_stack` ran is recorded in
`leaked`.
-/

namespace Green

/-- One operation a green thread's entry routine can perform: the public
runtime surface `spawn`, `schedule` (yield), `send`, `recv`. Exiting is
reaching the end of the list (the entry routine returning into
`entry_point`'s cleanup code). -/
inductive Op where
  | spawn (prog : List Op)
  | yield
  | send (key : Nat) (msg : Nat)
  | recv

/-- A thread context (`Context` in the source, abstracted for the
scheduler-level model): id, the remaining entry-routine code, the stack
allocation number, and bookkeeping for the two resumption paths.
`resumeDrain` is true iff the context was suspended by `set_context` inside
`schedule`/`recv` (so the code it resumes into begins with
`rm_unused_stack`); `pendingRecv` is true iff it was suspended on the
blocking path of `recv` (so the resumed code ends by popping its mailbox
again and returning that value from `recv`). `received` logs the values its
`recv` calls returned, in order. -/
structure Ctx where
  id : Nat
  prog : List Op
  stack : Nat
  resumeDrain : Bool
  pendingRecv : Bool
  received : List (Option Nat)

/-- Association-list lookup, modelling `HashMap::get`/`get_mut`. -/
def findA {α : Type} (k : Nat) : List (Nat × α) → Option α
  | [] => none
  | p :: rest => if p.1 = k then some p.2 else findA k rest

/-- Association-list insert/replace, modelling `HashMap::insert` (and an
in-place update through `get_mut`). -/
def setA {α : Type} (k : Nat) (v : α) : List (Nat × α) → List (Nat × α)
  | [] => [(k, v)]
  | p :: rest => if p.1 = k then (k, v) :: rest else p :: setA k v rest

/-- Association-list removal, modelling `HashMap::remove`. -/
def removeA {α : Type} (k : Nat) : List (Nat × α) → List (Nat × α)
  | [] => []
  | p :: rest => if p.1 = k then removeA k rest else p :: removeA k rest

/-- Removal from a list of ids, modelling `HashSet::remove`. -/
def removeNat (i : Nat) : List Nat → List Nat
  | [] => []
  | j :: rest => if j = i then removeNat i rest else j :: removeNat i rest

/-- `MappedList<u64>`: a map from key to the FIFO list of values under that
key (`HashMap<u64, LinkedList<T>>` in the source). -/
structure MappedList where
  map : List (Nat × List Nat)

/-- `MappedList::new`. -/
def MappedList.new : MappedList := ⟨[]⟩

/-- `MappedList::push_back`: append `val` at the tail of `key`'s list,
creating the list if absent. -/
def MappedList.push_back (m : MappedList) (key val : Nat) : MappedList :=
  match findA key m.map with
  | some l => ⟨setA key (l ++ [val]) m.map⟩
  | none => ⟨setA key [val] m.map⟩

/-- `MappedList::pop_front`: pop the head of `key`'s list; if the list is
then empty, remove the key from the map. Returns the popped value and the
updated store. -/
def MappedList.pop_front (m : MappedList) (key : Nat) : Option Nat × MappedList :=
  match findA key m.map with
  | some l =>
    match l with
    | [] => (none, ⟨removeA key m.map⟩)
    | v :: rest =>
      if rest = [] then (some v, ⟨removeA key m.map⟩)
      else (some v, ⟨setA key rest m.map⟩)
  | none => (none, m)

/-- `MappedList::clear`. -/
def MappedList.clear (_ : MappedList) : MappedList := ⟨[]⟩

/-- The process-wide runtime state: `CONTEXTS` (front = running thread),
`WAITING`, `MESSAGES`, the live-id set `ID`, the deferred-free slot
`UNUSED_STACK` (stack allocation number, `none` = null), and whether
`CTX_MAIN` is populated. `freed` records stacks whose guard page was
un-protected and whose memory was released by `rm_unused_stack`; `leaked`
records stacks whose slot entry was overwritten before being drained (the
source silently loses the old `(ptr, layout)` pair on that assignment).
`nextId`/`nextStack` are the fresh-value sources modelling `get_id`'s
rejection-sampled fresh random id and `alloc`'s fresh region. -/
structure State where
  contexts : List Ctx
  waiting : List (Nat × Ctx)
  messages : MappedList
  ids : List Nat
  unused : Option Nat
  ctxMain : Bool
  freed : List Nat
  leaked : List Nat
  nextId : Nat
  nextStack : Nat

/-- The fatal errors the runtime can raise. -/
inductive Panic where
  | deadlock
  | doubleActivation
  | noContext
deriving DecidableEq

/-- Result of one step, or of a bounded run: still running, returned to the
host (`spawn_from_main`'s tail ran), or a fatal error. -/
inductive StepRes where
  | ok (s : State)
  | done (s : State)
  | fatal (why : Panic)

/-- `rm_unused_stack`: if the deferred-free slot is occupied, restore
read/write access to the guard page and release the region, emptying the
slot. -/
def rm_unused_stack (s : State) : State :=
  match s.unused with
  | some st => { s with unused := none, freed := s.freed ++ [st] }
  | none => s

/-- Control arriving at the front context via `switch_context`. A context
suspended by `set_context` (inside `schedule` or blocking `recv`) resumes
into code that immediately calls `rm_unused_stack`; a fresh context starts
at `entry_point`, which performs no drain. -/
def switchIn (s : State) : State :=
  match s.contexts with
  | c :: rest =>
    if c.resumeDrain then
      let s' := rm_unused_stack s
      { s' with contexts := { c with resumeDrain := false } :: rest }
    else s
  | [] => s

/-- `schedule`: return immediately if the ready queue has exactly one entry;
otherwise move the front context to the back (suspending it at its
`set_context`) and switch to the new front. -/
def schedule (s : State) : State :=
  if s.contexts.length = 1 then s
  else
    match s.contexts with
    | [] => s
    | c :: rest => switchIn { s with contexts := rest ++ [{ c with resumeDrain := true }] }

/-- A freshly built context (`Context::new` at the scheduler level): never
suspended, no pending receive, empty receive log. -/
def freshCtx (id stack : Nat) (prog : List Op) : Ctx :=
  { id := id, prog := prog, stack := stack, resumeDrain := false,
    pendingRecv := false, received := [] }

/-- One step of the runtime: execute the front (running) context's code from
its next operation (or its pending-receive resumption, or its entry-routine
return into `entry_point`'s cleanup) through the context switch that code
performs. -/
def runFront (s : State) : StepRes :=
  match s.contexts with
  | [] => .fatal .noContext
  | c :: rest =>
    if c.pendingRecv then
      -- resumed blocking recv: `rm_unused_stack` already ran via `switchIn`;
      -- pop the mailbox again and return that value from `recv`
      let r := s.messages.pop_front c.id
      let c2 := { c with pendingRecv := false, received := c.received ++ [r.1] }
      .ok { s with contexts := c2 :: rest, messages := r.2 }
    else
      match c.prog with
      | [] =>
        -- the entry routine returned: `entry_point`'s cleanup
        let lk := match s.unused with
          | some st => s.leaked ++ [st]
          | none => s.leaked
        let s1 := { s with contexts := rest,
                           ids := removeNat c.id s.ids,
                           unused := some c.stack,
                           leaked := lk }
        match rest with
        | _ :: _ => .ok (switchIn s1)
        | [] =>
          -- all threads done: control returns into `spawn_from_main`, which
          -- drains the slot and clears every global before returning
          let s2 := rm_unused_stack s1
          .done { s2 with ctxMain := false,
                          contexts := [],
                          messages := MappedList.new,
                          waiting := [],
                          ids := [] }
      | op :: tl =>
        let c' := { c with prog := tl }
        match op with
        | .yield => .ok (schedule { s with contexts := c' :: rest })
        | .spawn p =>
          let nc := freshCtx s.nextId s.nextStack p
          .ok (schedule { s with contexts := c' :: rest ++ [nc],
                                 ids := s.ids ++ [s.nextId],
                                 nextId := s.nextId + 1,
                                 nextStack := s.nextStack + 1 })

        | .send key msg =>
          -- enqueue the message, then (if present) move the parked waiter to
          -- the back of the ready queue, then yield
          let msgs := s.messages.push_back key msg
          match findA key s.waiting with
          | some w =>
            .ok (schedule { s with messages := msgs,
                                   waiting := removeA key s.waiting,
                                   contexts := c' :: rest ++ [w] })
          | none => .ok (schedule { s with messages := msgs, contexts := c' :: rest })
        | .recv =>
          let r := s.messages.pop_front c.id
          match r.1 with
          | some msg =>
            -- fast path: a message is already queued
            .ok { s with contexts := { c' with received := c'.received ++ [some msg] } :: rest,
                         messages := r.2 }
          | none =>
            match rest with
            | [] => .fatal .deadlock
            | _ :: _ =>
              -- park the caller in the waiting registry and switch away
              .ok (switchIn { s with contexts := rest,
                                     messages := r.2,
                                     waiting := setA c.id
                                       { c' with resumeDrain := true, pendingRecv := true }
                                       s.waiting })

/-- Run `n` steps (`.ok` after `n` steps means still running). -/
def runN : Nat → State → StepRes
  | 0, s => .ok s
  | n + 1, s =>
    match runFront s with
    | .ok s' => runN n s'
    | r => r

/-- The pristine global state before any activation: all statics empty/null. -/
def emptyG : State :=
  { contexts := [], waiting := [], messages := MappedList.new, ids := [],
    unused := none, ctxMain := false, freed := [], leaked := [],
    nextId := 0, nextStack := 0 }

/-- The initialization performed by `spawn_from_main` before the first
switch: populate `CTX_MAIN`, create fresh empty `MESSAGES`/`WAITING`/`ID`,
draw the first id, and push the first context onto the ready queue. -/
def boot (s : State) (prog : List Op) : State :=
  { s with ctxMain := true,
           messages := MappedList.new, waiting := [], ids := [s.nextId],
           contexts := s.contexts ++ [freshCtx s.nextId s.nextStack prog],
           nextId := s.nextId + 1, nextStack := s.nextStack + 1 }

/-- `spawn_from_main(func, stack_size)` driven for at most `fuel` steps:
fatal if `CTX_MAIN` is already populated, otherwise initialize, switch into
the first thread and run. -/
def spawn_from_main (s : State) (prog : List Op) (fuel : Nat) : StepRes :=
  if s.ctxMain then .fatal .doubleActivation
  else runN fuel (switchIn (boot s prog))

/-- Project the final state out of a finished run. -/
def finalOf : StepRes → Option State
  | .done s => some s
  | _ => none

/-- Abstract code address of the `entry_point` trampoline (`entry_point as
u64` in the source); only its identity matters, never its numeric value. -/
def entryPointAddr : Nat := 1

/-- The saved register record (`Registers` in the source): AArch64
callee-saved floating-point and general-purpose registers, the link
register `x30`, and the stack pointer. Values are `u64`, modelled as `Nat`
reduced mod `2 ^ 64` where arithmetic occurs. -/
structure Registers where
  d8 : Nat
  d9 : Nat
  d10 : Nat
  d11 : Nat
  d12 : Nat
  d13 : Nat
  d14 : Nat
  d15 : Nat
  x19 : Nat
  x20 : Nat
  x21 : Nat
  x22 : Nat
  x23 : Nat
  x24 : Nat
  x25 : Nat
  x26 : Nat
  x27 : Nat
  x28 : Nat
  x30 : Nat
  sp : Nat
deriving DecidableEq

/-- `Registers::new(sp)`: every callee-saved register zero, link register =
address of `entry_point`, stack pointer = `sp`. -/
def Registers.new (sp : Nat) : Registers :=
  { d8 := 0, d9 := 0, d10 := 0, d11 := 0, d12 := 0, d13 := 0, d14 := 0, d15 := 0,
    x19 := 0, x20 := 0, x21 := 0, x22 := 0, x23 := 0, x24 := 0, x25 := 0,
    x26 := 0, x27 := 0, x28 := 0, x30 := entryPointAddr, sp := sp }

/-- `Context` as constructed by `Context::new`: the register record, the
stack base pointer, its layout `(size, align = page_size)`, the entry
routine, the id, and the region `(addr, len)` that `mprotect` marked
`PROT_NONE` (the guard page). -/
structure Context where
  regs : Registers
  stack : Nat
  stack_layout : Nat × Nat
  entry : List Op
  id : Nat
  guard : Nat × Nat

/-- `Context::new(func, stack_size, id)`. `base` is the address returned by
`alloc` and `page_size` the value returned by `sysconf(PAGE_SIZE)`; both are
made explicit parameters of the model. The lowest page `(base, page_size)`
is marked inaccessible, and the initial stack pointer is
`stack as u64 + stack_size as u64` (wrapping 64-bit addition). -/
def Context.new (func : List Op) (stack_size : Nat) (id : Nat)
    (page_size : Nat) (base : Nat) : Context :=
  { regs := Registers.new ((base + stack_size) % 2 ^ 64),
    stack := base,
    stack_layout := (stack_size, page_size),
    entry := func,
    id := id,
    guard := (base, page_size) }

/-- Project the state out of a non-fatal step result (defaulting to the
pristine state); used only to name concrete states of concrete runs. -/
def okOf : StepRes → State
  | .ok s => s
  | .done s => s
  | .fatal _ => emptyG

/-- The Mailbox Store invariant: no key is mapped to an empty queue. -/
def MLWF (m : MappedList) : Prop := ∀ p ∈ m.map, p.2 ≠ []

/-- Every thread context currently owned by the runtime: the ready queue
followed by the parked contexts of the waiting registry. -/
def allCtxs (s : State) : List Ctx := s.contexts ++ s.waiting.map Prod.snd

/-- The runtime invariant maintained by every step:
the mailbox store holds no empty queues; the waiting registry maps each key
to a context whose id is that key; live thread ids are pairwise distinct and
below the fresh-id source; every context parked-then-requeued with a pending
receive has a nonempty mailbox; and no completed `recv` ever produced
`none`. -/
structure Inv (s : State) : Prop where
  mlwf : MLWF s.messages
  keyed : ∀ p ∈ s.waiting, (Prod.snd p : Ctx).id = p.1
  nodup : ((allCtxs s).map Ctx.id).Nodup
  bound : ∀ c ∈ allCtxs s, c.id < s.nextId
  pend : ∀ c ∈ s.contexts, c.pendingRecv = true → findA c.id s.messages.map ≠ none
  recvOk : ∀ c ∈ allCtxs s, ∀ r ∈ c.received, r ≠ none

/-- One FIFO rotation of a queue: the front moves to the back. -/
def rot1 {α : Type} : List α → List α
  | [] => []
  | c :: rest => rest ++ [c]

/-- `n` FIFO rotations. -/
def rotN {α : Type} : Nat → List α → List α
  | 0, l => l
  | n + 1, l => rotN n (rot1 l)

/-- `n` successive calls of `schedule`. -/
def scheduleN : Nat → State → State
  | 0, s => s
  | n + 1, s => scheduleN n (schedule s)

/-- Test program: the first thread spawns a sibling that yields once and
then sends `42` to the first thread's id `0`; the first thread calls `recv`
while its mailbox is still empty, so it parks and is later woken by the
send. -/
def progA : List Op := [.spawn [.yield, .send 0 42], .recv]

/-- The state four steps into `progA`: the receiver has been woken by the
send and sits at the front of the ready queue with its receive pending. -/
def stA4 : State := okOf (runN 4 (switchIn (boot emptyG progA)))

/-- The front context of `stA4`. -/
def ctxA4 : Ctx := stA4.contexts.headD (freshCtx 0 0 [])

/-- The state five steps into `progA`: the woken receiver has popped its
message. -/
def stA5 : State := okOf (runN 5 (switchIn (boot emptyG progA)))

/-- Test program for the deferred-free slot: the first thread spawns a
second thread (whose whole body is spawning an empty third thread) and then
exits; the freshly spawned third thread becomes the next to run while the
first thread's stack is still in the deferred-free slot, and exits
immediately without passing any drain point. -/
def progB : List Op := [.spawn [.spawn []]]

/-- The cleared global state returned by a minimal complete activation. -/
def doneB : State := okOf (spawn_from_main emptyG [] 1)

/-! ### Association-list lemmas -/

theorem findA_setA_self {α : Type} (k : Nat) (v : α) (l : List (Nat × α)) :
    findA k (setA k v l) = some v := by
  induction l with
  | nil => simp [setA, findA]
  | cons q rest ih =>
    by_cases h : q.1 = k
    · simp [setA, h, findA]
    · simp [setA, h, findA, ih]

theorem findA_setA_ne {α : Type} {k k' : Nat} (v : α) (l : List (Nat × α)) (h : k' ≠ k) :
    findA k' (setA k v l) = findA k' l := by
  have h2 : ¬ k = k' := fun hh => h hh.symm
  induction l with
  | nil => simp [setA, findA, h2]
  | cons q rest ih =>
    by_cases hq : q.1 = k
    · subst hq
      simp [setA, findA, h2]
    · simp only [setA, hq, if_false]
      by_cases hq' : q.1 = k'
      · simp [findA, hq']
      · simp [findA, hq', ih]

theorem findA_removeA_ne {α : Type} {k k' : Nat} (l : List (Nat × α)) (h : k' ≠ k) :
    findA k' (removeA k l) = findA k' l := by
  have h2 : ¬ k = k' := fun hh => h hh.symm
  induction l with
  | nil => simp [removeA]
  | cons q rest ih =>
    by_cases hq : q.1 = k
    · subst hq
      simp [removeA, findA, h2, ih]
    · simp only [removeA, hq, if_false]
      by_cases hq' : q.1 = k'
      · simp [findA, hq']
      · simp [findA, hq', ih]

theorem mem_setA {α : Type} {p : Nat × α} {k : Nat} {v : α} {l : List (Nat × α)}
    (h : p ∈ setA k v l) : p = (k, v) ∨ p ∈ l := by
  induction l with
  | nil => simpa [setA] using h
  | cons q rest ih =>
    by_cases hq : q.1 = k
    · simp only [setA, hq, if_true, List.mem_cons] at h
      rcases h with h | h
      · exact Or.inl h
      · exact Or.inr (List.mem_cons_of_mem _ h)
    · simp only [setA, hq, if_false, List.mem_cons] at h
      rcases h with h | h
      · exact Or.inr (h ▸ List.mem_cons_self _ _)
      · rcases ih h with h' | h'
        · exact Or.inl h'
        · exact Or.inr (List.mem_cons_of_mem _ h')

theorem mem_removeA {α : Type} {p : Nat × α} {k : Nat} {l : List (Nat × α)}
    (h : p ∈ removeA k l) : p ∈ l := by
  induction l with
  | nil => simp [removeA] at h
  | cons q rest ih =>
    by_cases hq : q.1 = k
    · simp only [removeA, hq, if_true] at h
      exact List.mem_cons_of_mem _ (ih h)
    · simp only [removeA, hq, if_false, List.mem_cons] at h
      rcases h with h | h
      · exact h ▸ List.mem_cons_self _ _
      · exact List.mem_cons_of_mem _ (ih h)

/-! ### Mailbox-store lemmas -/

theorem MLWF_new : MLWF MappedList.new := by
  intro p hp
  simp [MappedList.new] at hp

theorem MLWF_push_back {m : MappedList} (h : MLWF m) (k v : Nat) :
    MLWF (m.push_back k v) := by
  unfold MappedList.push_back
  cases hf : findA k m.map with
  | some l =>
    intro p hp
    rcases mem_setA hp with rfl | hp'
    · simp
    · exact h p hp'
  | none =>
    intro p hp
    rcases mem_setA hp with rfl | hp'
    · simp
    · exact h p hp'

theorem MLWF_pop_front {m : MappedList} (h : MLWF m) (k : Nat) :
    MLWF (m.pop_front k).2 := by
  unfold MappedList.pop_front
  cases hf : findA k m.map with
  | some l =>
    cases l with
    | nil =>
      intro p hp
      exact h p (mem_removeA (k := k) hp)
    | cons v rest =>
      by_cases hr : rest = []
      · simp only [hr, if_true]
        intro p hp
        exact h p (mem_removeA (k := k) hp)
      · simp only [hr, if_false]
        intro p hp
        rcases mem_setA hp with rfl | hp'
        · exact hr
        · exact h p hp'
  | none => exact h

theorem findA_removeA_self {α : Type} (k : Nat) (l : List (Nat × α)) :
    findA k (removeA k l) = none := by
  induction l with
  | nil => simp [removeA, findA]
  | cons q rest ih =>
    by_cases hq : q.1 = k
    · simp [removeA, hq, ih]
    · simp [removeA, hq, findA, ih]

theorem pop_front_prunes {m : MappedList} {k v : Nat}
    (h : findA k m.map = some [v]) :
    findA k (m.pop_front k).2.map = none := by
  unfold MappedList.pop_front
  rw [h]
  simp [findA_removeA_self]

theorem MLWF_clear (m : MappedList) : MLWF m.clear := by
  intro p hp
  simp [MappedList.clear] at hp

theorem find_push_self (m : MappedList) (k v : Nat) :
    findA k (m.push_back k v).map = some ((findA k m.map).getD [] ++ [v]) := by
  unfold MappedList.push_back
  cases hf : findA k m.map with
  | some l => simp [findA_setA_self]
  | none => simp [findA_setA_self]

theorem find_push_ne (m : MappedList) {k k' : Nat} (v : Nat) (h : k' ≠ k) :
    findA k' (m.push_back k v).map = findA k' m.map := by
  unfold MappedList.push_back
  cases hf : findA k m.map with
  | some l => simpa using findA_setA_ne _ _ h
  | none => simpa using findA_setA_ne _ _ h

theorem find_push_ne_none {m : MappedList} {k' : Nat} (k v : Nat)
    (h : findA k' m.map ≠ none) :
    findA k' (m.push_back k v).map ≠ none := by
  by_cases hk : k' = k
  · subst hk
    rw [find_push_self]
    simp
  · rw [find_push_ne m v hk]
    exact h

theorem find_pop_ne (m : MappedList) {k k' : Nat} (h : k' ≠ k) :
    findA k' (m.pop_front k).2.map = findA k' m.map := by
  unfold MappedList.pop_front
  cases hf : findA k m.map with
  | some l =>
    cases l with
    | nil => simpa using findA_removeA_ne _ h
    | cons v rest =>
      by_cases hr : rest = []
      · simp only [hr, if_true]
        simpa using findA_removeA_ne _ h
      · simp only [hr, if_false]
        simpa using findA_setA_ne _ _ h
  | none => rfl

theorem pop_fst_of_find {m : MappedList} {k v : Nat} {rest : List Nat}
    (h : findA k m.map = some (v :: rest)) :
    (m.pop_front k).1 = some v := by
  unfold MappedList.pop_front
  rw [h]
  by_cases hr : rest = [] <;> simp [hr]

theorem findA_mem {α : Type} {k : Nat} {v : α} {l : List (Nat × α)}
    (h : findA k l = some v) : (k, v) ∈ l := by
  induction l with
  | nil => simp [findA] at h
  | cons q rest ih =>
    by_cases hq : q.1 = k
    · simp only [findA, hq, if_true, Option.some.injEq] at h
      subst h
      rw [← hq]
      exact List.mem_cons_self _ _
    · simp only [findA, hq, if_false] at h
      exact List.mem_cons_of_mem _ (ih h)

theorem pop_fst_ne_none {m : MappedList} {k : Nat} (hw : MLWF m)
    (h : findA k m.map ≠ none) :
    (m.pop_front k).1 ≠ none := by
  cases hf : findA k m.map with
  | none => exact absurd hf h
  | some l =>
    cases l with
    | nil =>
      exact absurd rfl (hw _ (findA_mem hf))
    | cons v rest =>
      rw [pop_fst_of_find hf]
      simp

theorem pop_none_unchanged {m : MappedList} {k : Nat} (hw : MLWF m)
    (h : (m.pop_front k).1 = none) :
    (m.pop_front k).2 = m := by
  cases hf : findA k m.map with
  | none =>
    unfold MappedList.pop_front
    rw [hf]
  | some l =>
    cases l with
    | nil => exact absurd rfl (hw _ (findA_mem hf))
    | cons v rest => rw [pop_fst_of_find hf] at h; cases h

theorem find_pop_self {m : MappedList} {k v : Nat} {rest : List Nat}
    (h : findA k m.map = some (v :: rest)) (hr : rest ≠ []) :
    findA k (m.pop_front k).2.map = some rest := by
  unfold MappedList.pop_front
  rw [h]
  simp [hr, findA_setA_self]

/-! ### Claim C9: the mailbox store never maps a key to an empty queue -/

/-- C9: the Mailbox Store never maps a key to an empty message queue: the
well-formedness predicate `MLWF` (every stored queue is nonempty) holds for
`new` and `clear` and is preserved by `push_back` and `pop_front`; moreover
a `pop_front` that takes the last message of a key removes that key from
the map immediately. -/
theorem mapped_list_no_empty_queues :
    MLWF MappedList.new ∧
    (∀ (m : MappedList) (k v : Nat), MLWF m → MLWF (m.push_back k v)) ∧
    (∀ (m : MappedList) (k : Nat), MLWF m → MLWF (m.pop_front k).2) ∧
    (∀ m : MappedList, MLWF m.clear) ∧
    (∀ (m : MappedList) (k v : Nat), findA k m.map = some [v] →
       findA k (m.pop_front k).2.map = none) :=
  ⟨MLWF_new,
   fun _ k v h => MLWF_push_back h k v,
   fun _ k h => MLWF_pop_front h k,
   MLWF_clear,
   fun _ _ _ h => pop_front_prunes h⟩

/-- Witness for C9 at a concrete store: pushing `7` under key `3` into the
empty store and then popping key `3` leaves a well-formed store with key `3`
pruned. -/
theorem mapped_list_no_empty_queues_witness :
    MLWF ((MappedList.new.push_back 3 7).pop_front 3).2 ∧
    findA 3 ((MappedList.new.push_back 3 7).pop_front 3).2.map = none :=
  ⟨mapped_list_no_empty_queues.2.2.1 _ 3
     (mapped_list_no_empty_queues.2.1 _ 3 7 mapped_list_no_empty_queues.1),
   mapped_list_no_empty_queues.2.2.2.2 _ 3 7 rfl⟩

/-! ### Claim C5: double activation of the runtime entry is fatal -/

/-- C5: calling `spawn_from_main` while `CTX_MAIN` is already populated is a
fatal error, before any other state is touched: the runtime supports exactly
one activation at a time. -/
theorem spawn_from_main_double_activation_fatal (s : State) (prog : List Op)
    (fuel : Nat) (h : s.ctxMain = true) :
    spawn_from_main s prog fuel = .fatal .doubleActivation := by
  simp [spawn_from_main, h]

/-- Witness for C5: a second activation attempt on an already-active state
is fatal. -/
theorem spawn_from_main_double_activation_fatal_witness :
    spawn_from_main { emptyG with ctxMain := true } [] 3 = .fatal .doubleActivation :=
  spawn_from_main_double_activation_fatal _ [] 3 rfl

/-! ### Claim C8: thread-context construction -/

/-- C8: `Context::new(entry, stack_size, id)` builds a register record whose
stack pointer is the top of the freshly allocated region (`base +
stack_size`, wrapping 64-bit addition), whose link register holds the
address of the `entry_point` trampoline — a value independent of the user
entry routine, which is stored separately in the `entry` field — and all of
whose other saved registers are zero; and the lowest page `(base,
page_size)` of the region is marked inaccessible as the guard page. -/
theorem context_new_register_record (f : List Op) (sz id ps base : Nat)
    (h : base + sz < 2 ^ 64) :
    (Context.new f sz id ps base).regs.sp = base + sz ∧
    (Context.new f sz id ps base).regs.x30 = entryPointAddr ∧
    (Context.new f sz id ps base).regs.d8 = 0 ∧
    (Context.new f sz id ps base).regs.d9 = 0 ∧
    (Context.new f sz id ps base).regs.d10 = 0 ∧
    (Context.new f sz id ps base).regs.d11 = 0 ∧
    (Context.new f sz id ps base).regs.d12 = 0 ∧
    (Context.new f sz id ps base).regs.d13 = 0 ∧
    (Context.new f sz id ps base).regs.d14 = 0 ∧
    (Context.new f sz id ps base).regs.d15 = 0 ∧
    (Context.new f sz id ps base).regs.x19 = 0 ∧
    (Context.new f sz id ps base).regs.x20 = 0 ∧
    (Context.new f sz id ps base).regs.x21 = 0 ∧
    (Context.new f sz id ps base).regs.x22 = 0 ∧
    (Context.new f sz id ps base).regs.x23 = 0 ∧
    (Context.new f sz id ps base).regs.x24 = 0 ∧
    (Context.new f sz id ps base).regs.x25 = 0 ∧
    (Context.new f sz id ps base).regs.x26 = 0 ∧
    (Context.new f sz id ps base).regs.x27 = 0 ∧
    (Context.new f sz id ps base).regs.x28 = 0 ∧
    (Context.new f sz id ps base).guard = (base, ps) ∧
    (Context.new f sz id ps base).stack = base ∧
    (Context.new f sz id ps base).stack_layout = (sz, ps) ∧
    (Context.new f sz id ps base).entry = f ∧
    (Context.new f sz id ps base).id = id ∧
    (∀ g : List Op,
       (Context.new g sz id ps base).regs.x30 = (Context.new f sz id ps base).regs.x30) := by
  refine ⟨?_, rfl, rfl, rfl, rfl, rfl, rfl, rfl, rfl, rfl, rfl, rfl, rfl, rfl, rfl,
          rfl, rfl, rfl, rfl, rfl, rfl, rfl, rfl, rfl, rfl, fun g => rfl⟩
  show (base + sz) % 2 ^ 64 = base + sz
  exact Nat.mod_eq_of_lt h

/-- Witness for C8: a context built on a page at `65536` with an 8 KiB stack
has its stack pointer at the top of the region. -/
theorem context_new_register_record_witness :
    (Context.new [] 8192 7 4096 65536).regs.sp = 65536 + 8192 ∧
    (Context.new [] 8192 7 4096 65536).regs.x30 = entryPointAddr :=
  ⟨(context_new_register_record [] 8192 7 4096 65536 (by norm_num)).1,
   (context_new_register_record [] 8192 7 4096 65536 (by norm_num)).2.1⟩

/-! ### Claim C4: recv with no message and no other runnable thread is fatal -/

/-- C4: `recv` called when the caller's mailbox yields no message and the
ready queue holds only the caller is a fatal deadlock: it neither blocks nor
returns. -/
theorem recv_sole_thread_deadlock (s : State) (c : Ctx) (tl : List Op)
    (h1 : s.contexts = [c]) (h2 : c.pendingRecv = false)
    (h3 : c.prog = .recv :: tl)
    (h4 : (s.messages.pop_front c.id).1 = none) :
    runFront s = .fatal .deadlock := by
  simp [runFront, h1, h2, h3, h4]

/-- Witness for C4: a freshly booted single-thread program whose entry
routine immediately calls `recv` dies with the deadlock panic. -/
theorem recv_sole_thread_deadlock_witness :
    runFront (switchIn (boot emptyG [.recv])) = .fatal .deadlock :=
  recv_sole_thread_deadlock _ (freshCtx 0 0 [.recv]) [] rfl rfl rfl rfl

/-! ### Claim C3: yield rotates the ready queue strictly FIFO -/

theorem switchIn_contexts_map_id (s : State) :
    (switchIn s).contexts.map Ctx.id = s.contexts.map Ctx.id := by
  unfold switchIn
  cases hc : s.contexts with
  | nil => simp [hc]
  | cons c rest =>
    by_cases hd : c.resumeDrain = true
    · simp [hd, hc]
    · simp [hd, hc]

theorem schedule_contexts_map_id (s : State) :
    (schedule s).contexts.map Ctx.id = rot1 (s.contexts.map Ctx.id) := by
  unfold schedule
  by_cases hl : s.contexts.length = 1
  · cases hc : s.contexts with
    | nil => simp [hc] at hl
    | cons c rest =>
      cases rest with
      | cons c2 r2 => rw [hc] at hl; simp [List.length] at hl
      | nil => simp [hl, hc, rot1]
  · simp only [hl, if_false]
    cases hc : s.contexts with
    | nil => simp [hc, rot1]
    | cons c rest =>
      rw [switchIn_contexts_map_id]
      simp [hc, rot1]

/-- C3: `schedule` with at least two ready contexts moves the front context
to the back and the remainder of the queue shifts forward (the second entry
becomes the new running front); iterating `schedule` rotates the queue
strictly FIFO, so no thread is skipped or run twice before every other
previously ready thread has reached the front once. -/
theorem schedule_rotates_fifo :
    (∀ (s : State) (c : Ctx) (rest : List Ctx), s.contexts = c :: rest → rest ≠ [] →
       (schedule s).contexts.map Ctx.id = rest.map Ctx.id ++ [c.id]) ∧
    (∀ (n : Nat) (s : State),
       (scheduleN n s).contexts.map Ctx.id = rotN n (s.contexts.map Ctx.id)) := by
  constructor
  · intro s c rest hc _
    rw [schedule_contexts_map_id, hc]
    simp [rot1]
  · intro n
    induction n with
    | zero => intro s; rfl
    | succ n ih =>
      intro s
      show (scheduleN n (schedule s)).contexts.map Ctx.id = _
      rw [ih, schedule_contexts_map_id]
      rfl

/-- Witness for C3: with two ready contexts of ids `1` and `2`, one
`schedule` makes `2` the front and `1` the tail. -/
theorem schedule_rotates_fifo_witness :
    (schedule { emptyG with contexts := [freshCtx 1 0 [], freshCtx 2 5 []] }).contexts.map Ctx.id
      = [freshCtx 2 5 []].map Ctx.id ++ [(freshCtx 1 0 []).id] :=
  schedule_rotates_fifo.1 _ (freshCtx 1 0 []) [freshCtx 2 5 []] rfl (List.cons_ne_nil _ _)

/-! ### Claim C6: teardown clears all process-wide state -/

theorem runFront_done {s f : State} (h : runFront s = .done f) :
    f.contexts = [] ∧ f.waiting = [] ∧ f.messages = MappedList.new ∧
    f.ids = [] ∧ f.unused = none ∧ f.ctxMain = false := by
  obtain ⟨ctxs, w, msgs, ids0, un, cm, fr, lk, ni, ns⟩ := s
  unfold runFront at h
  cases ctxs with
  | nil => cases h
  | cons c rest =>
    obtain ⟨cid, cprog, cstack, cdrain, cpend, crecv⟩ := c
    cases cpend with
    | true => cases h
    | false =>
      cases cprog with
      | nil =>
        cases rest with
        | cons c2 r2 => cases h
        | nil =>
          cases un with
          | some st =>
            cases h
            exact ⟨rfl, rfl, rfl, rfl, rfl, rfl⟩
          | none =>
            cases h
            exact ⟨rfl, rfl, rfl, rfl, rfl, rfl⟩
      | cons op tl =>
        cases op with
        | yield => cases h
        | spawn p => cases h
        | send key msg =>
          dsimp only at h
          rcases hfw : findA key w with _ | w0 <;> rw [hfw] at h <;> cases h
        | recv =>
          dsimp only at h
          rcases hr : (MappedList.pop_front msgs cid).1 with _ | v
          · rw [hr] at h
            cases rest with
            | nil => cases h
            | cons c2 r2 => cases h
          · rw [hr] at h
            cases h

theorem runN_done {n : Nat} {s f : State} (h : runN n s = .done f) :
    f.contexts = [] ∧ f.waiting = [] ∧ f.messages = MappedList.new ∧
    f.ids = [] ∧ f.unused = none ∧ f.ctxMain = false := by
  induction n generalizing s with
  | zero => cases h
  | succ n ih =>
    unfold runN at h
    cases hr : runFront s with
    | ok s2 =>
      rw [hr] at h
      exact ih h
    | done s2 =>
      rw [hr] at h
      cases h
      exact runFront_done hr
    | fatal w =>
      rw [hr] at h
      cases h

/-- C6: whenever `spawn_from_main` returns to the host, the ready queue,
waiting registry, mailbox store, live-id set and deferred-free slot are all
empty and the `CTX_MAIN` record is discarded, so a subsequent fresh
activation is accepted (it takes the initialization path, not the
double-activation panic). -/
theorem bootstrap_return_clears_state (s : State) (prog : List Op) (fuel : Nat)
    (f : State) (h : spawn_from_main s prog fuel = .done f) :
    f.contexts = [] ∧ f.waiting = [] ∧ f.messages = MappedList.new ∧
    f.ids = [] ∧ f.unused = none ∧ f.ctxMain = false ∧
    (∀ (prog2 : List Op) (fuel2 : Nat),
       spawn_from_main f prog2 fuel2 = runN fuel2 (switchIn (boot f prog2))) := by
  unfold spawn_from_main at h
  by_cases hm : s.ctxMain = true
  · rw [if_pos hm] at h
    cases h
  · rw [if_neg hm] at h
    have hd := runN_done h
    refine ⟨hd.1, hd.2.1, hd.2.2.1, hd.2.2.2.1, hd.2.2.2.2.1, hd.2.2.2.2.2, ?_⟩
    intro prog2 fuel2
    unfold spawn_from_main
    rw [if_neg ?_]
    rw [hd.2.2.2.2.2]
    simp

/-- Witness for C6: a one-thread activation whose entry routine does nothing
returns a fully cleared state that accepts another activation. -/
theorem bootstrap_return_clears_state_witness :
    doneB.contexts = [] ∧ doneB.waiting = [] ∧ doneB.messages = MappedList.new ∧
    doneB.ids = [] ∧ doneB.unused = none ∧ doneB.ctxMain = false ∧
    (∀ (prog2 : List Op) (fuel2 : Nat),
       spawn_from_main doneB prog2 fuel2 = runN fuel2 (switchIn (boot doneB prog2))) :=
  bootstrap_return_clears_state emptyG [] 1 doneB rfl

/-! ### Claim C2: per-key FIFO delivery -/

theorem sendSeq_sole_aux (key : Nat) (L : List Nat) :
    ∀ (s : State) (c : Ctx) (tl : List Op),
    s.contexts = [c] → c.pendingRecv = false →
    c.prog = L.map (fun v => Op.send key v) ++ tl →
    findA key s.waiting = none →
    ∃ (s' : State) (c' : Ctx), runN L.length s = .ok s' ∧
      s'.contexts = [c'] ∧ c'.pendingRecv = false ∧ c'.prog = tl ∧
      c'.id = c.id ∧ c'.received = c.received ∧ s'.waiting = s.waiting ∧
      (findA key s'.messages.map).getD []
        = (findA key s.messages.map).getD [] ++ L := by
  induction L with
  | nil =>
    intro s c tl h1 h2 h3 h4
    exact ⟨s, c, rfl, h1, h2, by simpa using h3, rfl, rfl, rfl, by simp⟩
  | cons v vs ih =>
    intro s c tl h1 h2 h3 h4
    have hstep : runFront s = .ok { s with
        messages := s.messages.push_back key v,
        contexts := [{ c with prog := vs.map (fun x => Op.send key x) ++ tl }] } := by
      have h3' : c.prog = Op.send key v :: (vs.map (fun x => Op.send key x) ++ tl) := by
        simpa using h3
      simp [runFront, h1, h2, h3', h4, schedule]
    obtain ⟨s', c', hrun, hctx, hpend, hprog, hid, hrecv, hwait, hmsg⟩ :=
      ih { s with messages := s.messages.push_back key v,
                  contexts := [{ c with prog := vs.map (fun x => Op.send key x) ++ tl }] }
         { c with prog := vs.map (fun x => Op.send key x) ++ tl } tl rfl h2 rfl h4
    refine ⟨s', c', ?_, hctx, hpend, hprog, hid, hrecv, hwait, ?_⟩
    · show runN (vs.length + 1) s = .ok s'
      simp only [runN, hstep]
      exact hrun
    · rw [hmsg]
      show (findA key (s.messages.push_back key v).map).getD [] ++ vs = _
      rw [find_push_self]
      simp

theorem recvSeq_fifo_aux (L : List Nat) :
    ∀ (s : State) (c : Ctx) (rest : List Ctx) (tl : List Op),
    s.contexts = c :: rest → c.pendingRecv = false →
    c.prog = List.replicate L.length Op.recv ++ tl →
    findA c.id s.messages.map = some L →
    ∃ (s' : State) (c' : Ctx), runN L.length s = .ok s' ∧
      s'.contexts = c' :: rest ∧ c'.pendingRecv = false ∧ c'.prog = tl ∧
      c'.id = c.id ∧ c'.received = c.received ++ L.map some := by
  induction L with
  | nil =>
    intro s c rest tl h1 h2 h3 _
    exact ⟨s, c, rfl, h1, h2, by simpa using h3, rfl, by simp⟩
  | cons v vs ih =>
    intro s c rest tl h1 h2 h3 hf
    have hpop1 : (s.messages.pop_front c.id).1 = some v := pop_fst_of_find hf
    have hstep : runFront s = .ok { s with
        messages := (s.messages.pop_front c.id).2,
        contexts := { c with prog := List.replicate vs.length Op.recv ++ tl,
                             received := c.received ++ [some v] } :: rest } := by
      have h3' : c.prog = Op.recv :: (List.replicate vs.length Op.recv ++ tl) := by
        simpa [List.replicate_succ] using h3
      simp [runFront, h1, h2, h3', hpop1]
    cases hvs : vs with
    | nil =>
      subst hvs
      refine ⟨{ s with messages := (s.messages.pop_front c.id).2,
                       contexts := { c with prog := List.replicate (List.length ([] : List Nat)) Op.recv ++ tl,
                                            received := c.received ++ [some v] } :: rest },
              { c with prog := List.replicate (List.length ([] : List Nat)) Op.recv ++ tl,
                       received := c.received ++ [some v] },
              ?_, rfl, h2, ?_, rfl, ?_⟩
      · show runN 1 s = _
        simp only [runN, hstep]
      · simp
      · simp
    | cons v2 vs2 =>
      rw [← hvs]
      have hf2 : findA c.id (s.messages.pop_front c.id).2.map = some vs :=
        find_pop_self hf (by rw [hvs]; exact List.cons_ne_nil _ _)
      obtain ⟨s', c', hrun, hctx, hpend, hprog, hid, hrecv⟩ :=
        ih { s with messages := (s.messages.pop_front c.id).2,
                    contexts := { c with prog := List.replicate vs.length Op.recv ++ tl,
                                         received := c.received ++ [some v] } :: rest }
           { c with prog := List.replicate vs.length Op.recv ++ tl,
                    received := c.received ++ [some v] } rest tl rfl h2 rfl hf2
      refine ⟨s', c', ?_, hctx, hpend, hprog, hid, ?_⟩
      · show runN (vs.length + 1) s = .ok s'
        simp only [runN, hstep]
        exact hrun
      · rw [hrecv]
        simp

/-- C2: per-key FIFO delivery. First conjunct (sender side): a thread that
performs `send(key, m1) ... send(key, mk)` with no waiter parked under
`key` appends exactly `m1, ..., mk`, in that order, to the tail of `key`'s
queue in the mailbox store. Second conjunct (receiver side): a thread whose
mailbox queue holds `m1, ..., mk` and which performs `k` successive `recv`
calls receives `m1, ..., mk` in exactly that order. -/
theorem mailbox_fifo_delivery :
    (∀ (key : Nat) (L : List Nat) (s : State) (c : Ctx) (tl : List Op),
       s.contexts = [c] → c.pendingRecv = false →
       c.prog = L.map (fun v => Op.send key v) ++ tl →
       findA key s.waiting = none →
       ∃ (s' : State) (c' : Ctx), runN L.length s = .ok s' ∧
         s'.contexts = [c'] ∧ c'.pendingRecv = false ∧ c'.prog = tl ∧
         c'.id = c.id ∧ c'.received = c.received ∧ s'.waiting = s.waiting ∧
         (findA key s'.messages.map).getD []
           = (findA key s.messages.map).getD [] ++ L) ∧
    (∀ (L : List Nat) (s : State) (c : Ctx) (rest : List Ctx) (tl : List Op),
       s.contexts = c :: rest → c.pendingRecv = false →
       c.prog = List.replicate L.length Op.recv ++ tl →
       findA c.id s.messages.map = some L →
       ∃ (s' : State) (c' : Ctx), runN L.length s = .ok s' ∧
         s'.contexts = c' :: rest ∧ c'.pendingRecv = false ∧ c'.prog = tl ∧
         c'.id = c.id ∧ c'.received = c.received ++ L.map some) :=
  ⟨fun key L => sendSeq_sole_aux key L, fun L => recvSeq_fifo_aux L⟩

/-- Witness for C2: a sole thread sending `1, 2` under key `9` buffers
`[1, 2]` in order, and a thread with mailbox `[5, 6]` receiving twice
observes `5` then `6`. -/
theorem mailbox_fifo_delivery_witness :
    (∃ (s' : State) (c' : Ctx),
       runN 2 { emptyG with contexts := [freshCtx 4 0 [.send 9 1, .send 9 2]] } = .ok s' ∧
       s'.contexts = [c'] ∧ c'.pendingRecv = false ∧ c'.prog = [] ∧
       c'.id = (freshCtx 4 0 [.send 9 1, .send 9 2]).id ∧
       c'.received = (freshCtx 4 0 [.send 9 1, .send 9 2]).received ∧
       s'.waiting = State.waiting { emptyG with contexts := [freshCtx 4 0 [.send 9 1, .send 9 2]] } ∧
       (findA 9 s'.messages.map).getD []
         = (findA 9 (State.messages { emptyG with contexts := [freshCtx 4 0 [.send 9 1, .send 9 2]] }).map).getD [] ++ [1, 2]) ∧
    (∃ (s' : State) (c' : Ctx),
       runN 2 { emptyG with contexts := [freshCtx 4 0 [.recv, .recv]],
                            messages := ⟨[(4, [5, 6])]⟩ } = .ok s' ∧
       s'.contexts = [c'] ∧ c'.pendingRecv = false ∧ c'.prog = [] ∧
       c'.id = (freshCtx 4 0 [.recv, .recv]).id ∧
       c'.received = (freshCtx 4 0 [.recv, .recv]).received ++ [5, 6].map some) :=
  ⟨mailbox_fifo_delivery.1 9 [1, 2] _ (freshCtx 4 0 [.send 9 1, .send 9 2]) [] rfl rfl rfl rfl,
   mailbox_fifo_delivery.2 [5, 6] _ (freshCtx 4 0 [.recv, .recv]) [] [] rfl rfl rfl rfl⟩

/-! ### The runtime invariant -/

theorem removeA_of_not_mem {α : Type} {k : Nat} :
    ∀ {l : List (Nat × α)}, k ∉ l.map Prod.fst → removeA k l = l := by
  intro l
  induction l with
  | nil => intro _; rfl
  | cons q rest ih =>
    intro hk
    simp only [List.map_cons, List.mem_cons] at hk
    push_neg at hk
    have hq : ¬ q.1 = k := fun hh => hk.1 hh.symm
    simp [removeA, hq, ih hk.2]

theorem setA_of_not_mem {α : Type} {k : Nat} (v : α) :
    ∀ {l : List (Nat × α)}, k ∉ l.map Prod.fst → setA k v l = l ++ [(k, v)] := by
  intro l
  induction l with
  | nil => intro _; rfl
  | cons q rest ih =>
    intro hk
    simp only [List.map_cons, List.mem_cons] at hk
    push_neg at hk
    have hq : ¬ q.1 = k := fun hh => hk.1 hh.symm
    simp [setA, hq, ih hk.2]

theorem perm_removeA {α : Type} {k : Nat} {v : α} :
    ∀ {l : List (Nat × α)}, (l.map Prod.fst).Nodup → findA k l = some v →
      l.Perm ((k, v) :: removeA k l) := by
  intro l
  induction l with
  | nil => intro _ h; simp [findA] at h
  | cons q rest ih =>
    intro hnd hf
    simp only [List.map_cons, List.nodup_cons] at hnd
    by_cases hq : q.1 = k
    · simp only [findA, hq, if_true, Option.some.injEq] at hf
      have hq2 : q = (k, v) := by
        cases q
        simp_all
      have hk : k ∉ rest.map Prod.fst := by
        rw [← hq]
        exact hnd.1
      rw [hq2]
      simp [removeA, removeA_of_not_mem hk]
    · simp only [findA, hq, if_false] at hf
      have hperm := ih hnd.2 hf
      have h1 : (q :: rest).Perm (q :: (k, v) :: removeA k rest) := hperm.cons q
      have h2 : (q :: (k, v) :: removeA k rest).Perm ((k, v) :: q :: removeA k rest) :=
        List.Perm.swap _ _ _
      have h3 : (k, v) :: q :: removeA k rest = (k, v) :: removeA k (q :: rest) := by
        simp [removeA, hq]
      rw [← h3]
      exact h1.trans h2

/-- `rm_unused_stack` only touches the deferred-free slot and the free
log. -/
theorem rm_unused_contexts (s : State) : (rm_unused_stack s).contexts = s.contexts := by
  unfold rm_unused_stack
  cases s.unused <;> rfl

theorem rm_unused_waiting (s : State) : (rm_unused_stack s).waiting = s.waiting := by
  unfold rm_unused_stack
  cases s.unused <;> rfl

theorem rm_unused_messages (s : State) : (rm_unused_stack s).messages = s.messages := by
  unfold rm_unused_stack
  cases s.unused <;> rfl

theorem rm_unused_nextId (s : State) : (rm_unused_stack s).nextId = s.nextId := by
  unfold rm_unused_stack
  cases s.unused <;> rfl

theorem allCtxs_rm_unused (s : State) : allCtxs (rm_unused_stack s) = allCtxs s := by
  simp [allCtxs, rm_unused_contexts, rm_unused_waiting]

theorem inv_rm_unused {s : State} (h : Inv s) : Inv (rm_unused_stack s) := by
  refine ⟨?_, ?_, ?_, ?_, ?_, ?_⟩
  · rw [rm_unused_messages]; exact h.mlwf
  · rw [rm_unused_waiting]; exact h.keyed
  · rw [allCtxs_rm_unused]; exact h.nodup
  · rw [allCtxs_rm_unused, rm_unused_nextId]; exact h.bound
  · rw [rm_unused_contexts, rm_unused_messages]; exact h.pend
  · rw [allCtxs_rm_unused]; exact h.recvOk

/-- Replacing the front context by one with the same id, pending-receive
flag and receive log preserves the invariant. -/
theorem inv_replace_head {s : State} (h : Inv s) {c : Ctx} {rest : List Ctx}
    (hc : s.contexts = c :: rest) (c2 : Ctx) (hid : c2.id = c.id)
    (hpend : c2.pendingRecv = c.pendingRecv) (hrecv : c2.received = c.received) :
    Inv { s with contexts := c2 :: rest } := by
  have hmap : (allCtxs { s with contexts := c2 :: rest }).map Ctx.id
      = (allCtxs s).map Ctx.id := by
    simp [allCtxs, hc, hid]
  refine ⟨h.mlwf, h.keyed, ?_, ?_, ?_, ?_⟩
  · rw [hmap]; exact h.nodup
  · intro x hx
    have hx2 : x.id ∈ (allCtxs { s with contexts := c2 :: rest }).map Ctx.id :=
      List.mem_map_of_mem _ hx
    rw [hmap] at hx2
    obtain ⟨y, hy, hyid⟩ := List.mem_map.1 hx2
    show x.id < s.nextId
    rw [← hyid]
    exact h.bound y hy
  · intro x hx hpx
    show findA x.id s.messages.map ≠ none
    rcases List.mem_cons.1 hx with rfl | hx'
    · rw [hid]
      exact h.pend c (by rw [hc]; exact List.mem_cons_self _ _) (by rw [← hpend]; exact hpx)
    · exact h.pend x (by rw [hc]; exact List.mem_cons_of_mem _ hx') hpx
  · intro x hx r hr
    rcases List.mem_append.1 hx with hx' | hx'
    · rcases List.mem_cons.1 hx' with rfl | hx''
      · refine h.recvOk c ?_ r (by rw [← hrecv]; exact hr)
        exact List.mem_append.2 (Or.inl (by rw [hc]; exact List.mem_cons_self _ _))
      · refine h.recvOk x ?_ r hr
        exact List.mem_append.2 (Or.inl (by rw [hc]; exact List.mem_cons_of_mem _ hx''))
    · exact h.recvOk x (List.mem_append.2 (Or.inr hx')) r hr

theorem inv_switchIn {s : State} (h : Inv s) : Inv (switchIn s) := by
  unfold switchIn
  cases hc : s.contexts with
  | nil => exact h
  | cons c rest =>
    by_cases hd : c.resumeDrain = true
    · simp only [hd, if_true]
      have h2 := inv_rm_unused h
      have hc2 : (rm_unused_stack s).contexts = c :: rest := by rw [rm_unused_contexts, hc]
      exact inv_replace_head h2 hc2 _ rfl rfl rfl
    · simp only [hd, if_false]
      exact h

theorem inv_schedule {s : State} (h : Inv s) : Inv (schedule s) := by
  unfold schedule
  by_cases hl : s.contexts.length = 1
  · simp only [hl, if_true]
    exact h
  · simp only [hl, if_false]
    cases hc : s.contexts with
    | nil => exact h
    | cons c rest =>
      apply inv_switchIn
      set c2 : Ctx := { c with resumeDrain := true } with hc2
      have hperm : ((allCtxs { s with contexts := rest ++ [c2] }).map Ctx.id).Perm
          ((allCtxs s).map Ctx.id) := by
        simp only [allCtxs, hc, List.map_append, List.map_cons]
        refine List.Perm.append_right _ ?_
        have : c2.id = c.id := rfl
        simp only [List.map_append, List.map_cons, List.map_nil, this]
        exact List.perm_append_singleton _ _
      refine ⟨h.mlwf, h.keyed, ?_, ?_, ?_, ?_⟩
      · exact hperm.symm.nodup h.nodup
      · intro x hx
        have hx2 : x.id ∈ (allCtxs { s with contexts := rest ++ [c2] }).map Ctx.id :=
          List.mem_map_of_mem _ hx
        have hx3 := hperm.subset hx2
        obtain ⟨y, hy, hyid⟩ := List.mem_map.1 hx3
        show x.id < s.nextId
        rw [← hyid]
        exact h.bound y hy
      · intro x hx hpx
        show findA x.id s.messages.map ≠ none
        rcases List.mem_append.1 hx with hx' | hx'
        · exact h.pend x (by rw [hc]; exact List.mem_cons_of_mem _ hx') hpx
        · have hxc : x = c2 := by simpa using hx'
          subst hxc
          exact h.pend c (by rw [hc]; exact List.mem_cons_self _ _) hpx
      · intro x hx r hr
        rcases List.mem_append.1 hx with hx' | hx'
        · rcases List.mem_append.1 hx' with hx'' | hx''
          · refine h.recvOk x ?_ r hr
            exact List.mem_append.2 (Or.inl (by rw [hc]; exact List.mem_cons_of_mem _ hx''))
          · have hxc : x = c2 := by simpa using hx''
            subst hxc
            refine h.recvOk c ?_ r hr
            exact List.mem_append.2 (Or.inl (by rw [hc]; exact List.mem_cons_self _ _))
        · exact h.recvOk x (List.mem_append.2 (Or.inr hx')) r hr

theorem allCtxs_id_cons {s : State} {c : Ctx} {rest : List Ctx}
    (hc : s.contexts = c :: rest) :
    (allCtxs s).map Ctx.id
      = c.id :: (rest.map Ctx.id ++ (s.waiting.map Prod.snd).map Ctx.id) := by
  simp [allCtxs, hc]

theorem head_id_not_in {s : State} {c : Ctx} {rest : List Ctx}
    (h : Inv s) (hc : s.contexts = c :: rest) :
    c.id ∉ rest.map Ctx.id ∧ c.id ∉ (s.waiting.map Prod.snd).map Ctx.id := by
  have hn := h.nodup
  rw [allCtxs_id_cons hc] at hn
  have hn2 := (List.nodup_cons.1 hn).1
  constructor
  · exact fun hh => hn2 (List.mem_append.2 (Or.inl hh))
  · exact fun hh => hn2 (List.mem_append.2 (Or.inr hh))

theorem nodup_bound_of_perm {s s' : State}
    (hperm : ((allCtxs s').map Ctx.id).Perm ((allCtxs s).map Ctx.id))
    (hn : s.nextId ≤ s'.nextId) (h : Inv s) :
    ((allCtxs s').map Ctx.id).Nodup ∧ (∀ c ∈ allCtxs s', c.id < s'.nextId) := by
  constructor
  · exact hperm.symm.nodup h.nodup
  · intro x hx
    have hx2 := hperm.subset (List.mem_map_of_mem Ctx.id hx)
    obtain ⟨y, hy, hyid⟩ := List.mem_map.1 hx2
    calc x.id = y.id := hyid.symm
      _ < s.nextId := h.bound y hy
      _ ≤ s'.nextId := hn

theorem keyed_map_fst {w : List (Nat × Ctx)}
    (hk : ∀ p ∈ w, (Prod.snd p : Ctx).id = p.1) :
    w.map Prod.fst = w.map (fun p => (Prod.snd p : Ctx).id) :=
  (List.map_congr_left (fun p hp => hk p hp)).symm

theorem waiting_ids_nodup {s : State} (h : Inv s) :
    ((s.waiting.map Prod.snd).map Ctx.id).Nodup := by
  have hn := h.nodup
  rw [show (allCtxs s).map Ctx.id
      = s.contexts.map Ctx.id ++ (s.waiting.map Prod.snd).map Ctx.id by simp [allCtxs]] at hn
  exact (List.nodup_append.1 hn).2.1

/-- The pending-receive pop (the tail of a resumed blocking `recv`)
preserves the invariant. -/
theorem inv_branch_pending {s : State} {c : Ctx} {rest : List Ctx}
    (h : Inv s) (hc : s.contexts = c :: rest) (hp : c.pendingRecv = true) :
    Inv { s with
          contexts := { c with pendingRecv := false,
                               received := c.received ++ [(s.messages.pop_front c.id).1] } :: rest,
          messages := (s.messages.pop_front c.id).2 } := by
  have hids := head_id_not_in h hc
  have heq : (allCtxs { s with
      contexts := { c with pendingRecv := false,
                           received := c.received ++ [(s.messages.pop_front c.id).1] } :: rest,
      messages := (s.messages.pop_front c.id).2 }).map Ctx.id = (allCtxs s).map Ctx.id := by
    simp [allCtxs, hc]
  have hnb := nodup_bound_of_perm (s := s) (List.Perm.of_eq heq) (Nat.le_refl _) h
  refine ⟨MLWF_pop_front h.mlwf c.id, h.keyed, hnb.1, hnb.2, ?_, ?_⟩
  · intro x hx hpx
    rcases List.mem_cons.1 hx with rfl | hx'
    · simp at hpx
    · have hxne : x.id ≠ c.id := fun hh => hids.1 (hh ▸ List.mem_map_of_mem Ctx.id hx')
      show findA x.id (s.messages.pop_front c.id).2.map ≠ none
      rw [find_pop_ne _ hxne]
      exact h.pend x (by rw [hc]; exact List.mem_cons_of_mem _ hx') hpx
  · intro x hx r hr
    rcases List.mem_append.1 hx with hx' | hx'
    · rcases List.mem_cons.1 hx' with rfl | hx''
      · have hr2 : r ∈ c.received ∨ r = (s.messages.pop_front c.id).1 := by simpa using hr
        rcases hr2 with hr' | hr'
        · refine h.recvOk c ?_ r hr'
          exact List.mem_append.2 (Or.inl (by rw [hc]; exact List.mem_cons_self _ _))
        · subst hr'
          exact pop_fst_ne_none h.mlwf
            (h.pend c (by rw [hc]; exact List.mem_cons_self _ _) hp)
      · refine h.recvOk x ?_ r hr
        exact List.mem_append.2 (Or.inl (by rw [hc]; exact List.mem_cons_of_mem _ hx''))
    · exact h.recvOk x (List.mem_append.2 (Or.inr hx')) r hr

/-- Removing the front context (thread exit) preserves the invariant, for
any values of the id set, the deferred-free slot and the leak log. -/
theorem inv_branch_exit {s : State} {c : Ctx} {rest : List Ctx} (h : Inv s)
    (hc : s.contexts = c :: rest) (I : List Nat) (U : Option Nat) (Lk : List Nat) :
    Inv { s with contexts := rest, ids := I, unused := U, leaked := Lk } := by
  refine ⟨h.mlwf, h.keyed, ?_, ?_, ?_, ?_⟩
  · have hn := h.nodup
    rw [allCtxs_id_cons hc] at hn
    have := (List.nodup_cons.1 hn).2
    simpa [allCtxs] using this
  · intro x hx
    refine h.bound x ?_
    rcases List.mem_append.1 hx with hx' | hx'
    · exact List.mem_append.2 (Or.inl (by rw [hc]; exact List.mem_cons_of_mem _ hx'))
    · exact List.mem_append.2 (Or.inr hx')
  · intro x hx hpx
    exact h.pend x (by rw [hc]; exact List.mem_cons_of_mem _ hx) hpx
  · intro x hx r hr
    refine h.recvOk x ?_ r hr
    rcases List.mem_append.1 hx with hx' | hx'
    · exact List.mem_append.2 (Or.inl (by rw [hc]; exact List.mem_cons_of_mem _ hx'))
    · exact List.mem_append.2 (Or.inr hx')

/-- Spawning a fresh context (fresh id, fresh stack, empty log) at the back
of the queue preserves the invariant. -/
theorem inv_branch_spawn {s : State} {c : Ctx} {rest : List Ctx} {tl : List Op}
    (h : Inv s) (hc : s.contexts = c :: rest) (hp : c.pendingRecv = false)
    (p : List Op) (I : List Nat) :
    Inv { s with contexts := { c with prog := tl } :: rest ++ [freshCtx s.nextId s.nextStack p],
                 ids := I, nextId := s.nextId + 1, nextStack := s.nextStack + 1 } := by
  have hperm : ((allCtxs { s with
      contexts := { c with prog := tl } :: rest ++ [freshCtx s.nextId s.nextStack p],
      ids := I, nextId := s.nextId + 1, nextStack := s.nextStack + 1 }).map Ctx.id).Perm
      (s.nextId :: (allCtxs s).map Ctx.id) := by
    have h1 : (rest.map Ctx.id ++ [s.nextId]).Perm (s.nextId :: rest.map Ctx.id) :=
      List.perm_append_singleton _ _
    have h2 := (h1.append_right ((s.waiting.map Prod.snd).map Ctx.id)).cons c.id
    have h3 : (c.id :: (s.nextId :: rest.map Ctx.id
        ++ (s.waiting.map Prod.snd).map Ctx.id)).Perm
        (s.nextId :: c.id :: (rest.map Ctx.id ++ (s.waiting.map Prod.snd).map Ctx.id)) :=
      List.Perm.swap _ _ _
    refine List.Perm.trans ?_ (h2.trans h3 |>.trans ?_)
    · apply List.Perm.of_eq
      simp [allCtxs, hc, freshCtx]
    · apply List.Perm.of_eq
      rw [allCtxs_id_cons hc]
  have hnotin : s.nextId ∉ (allCtxs s).map Ctx.id := by
    intro hmem
    obtain ⟨y, hy, hyid⟩ := List.mem_map.1 hmem
    have hlt := h.bound y hy
    rw [hyid] at hlt
    exact absurd hlt (lt_irrefl _)
  refine ⟨h.mlwf, h.keyed, ?_, ?_, ?_, ?_⟩
  · exact hperm.symm.nodup (List.nodup_cons.2 ⟨hnotin, h.nodup⟩)
  · intro x hx
    have hx2 := hperm.subset (List.mem_map_of_mem Ctx.id hx)
    rcases List.mem_cons.1 hx2 with hx3 | hx3
    · rw [hx3]
      exact Nat.lt_succ_self _
    · obtain ⟨y, hy, hyid⟩ := List.mem_map.1 hx3
      calc x.id = y.id := hyid.symm
        _ < s.nextId := h.bound y hy
        _ < s.nextId + 1 := Nat.lt_succ_self _
  · intro x hx hpx
    rcases List.mem_cons.1 hx with rfl | hx'
    · have hp2 : c.pendingRecv = true := hpx
      rw [hp] at hp2
      cases hp2
    · rcases List.mem_append.1 hx' with hx'' | hx''
      · exact h.pend x (by rw [hc]; exact List.mem_cons_of_mem _ hx'') hpx
      · have hxc : x = freshCtx s.nextId s.nextStack p := by simpa using hx''
        subst hxc
        simp [freshCtx] at hpx
  · intro x hx r hr
    rcases List.mem_append.1 hx with hx' | hx'
    · rcases List.mem_cons.1 hx' with rfl | hx''
      · refine h.recvOk c ?_ r hr
        exact List.mem_append.2 (Or.inl (by rw [hc]; exact List.mem_cons_self _ _))
      · rcases List.mem_append.1 hx'' with hx3 | hx3
        · refine h.recvOk x ?_ r hr
          exact List.mem_append.2 (Or.inl (by rw [hc]; exact List.mem_cons_of_mem _ hx3))
        · have hxc : x = freshCtx s.nextId s.nextStack p := by simpa using hx3
          subst hxc
          simp [freshCtx] at hr
    · exact h.recvOk x (List.mem_append.2 (Or.inr hx')) r hr

/-- Generic pending-receive transfer: the head is replaced by a context
with the same pending flag (known false) and the mailbox store changes in a
way that preserves non-emptiness of every key other than the head's own. -/
theorem pend_head {s : State} (h : Inv s) {c : Ctx} {rest : List Ctx}
    (hc : s.contexts = c :: rest) (hp : c.pendingRecv = false)
    (c2 : Ctx) (hpend : c2.pendingRecv = c.pendingRecv)
    (m2 : MappedList)
    (hm : ∀ k, k ≠ c.id → findA k s.messages.map ≠ none → findA k m2.map ≠ none) :
    ∀ x ∈ c2 :: rest, x.pendingRecv = true → findA x.id m2.map ≠ none := by
  have hids := head_id_not_in h hc
  intro x hx hpx
  rcases List.mem_cons.1 hx with rfl | hx'
  · have hp2 : c.pendingRecv = true := by rw [← hpend]; exact hpx
    rw [hp] at hp2
    cases hp2
  · have hxne : x.id ≠ c.id := fun hh => hids.1 (hh ▸ List.mem_map_of_mem Ctx.id hx')
    exact hm _ hxne (h.pend x (by rw [hc]; exact List.mem_cons_of_mem _ hx') hpx)

/-- Generic receive-log transfer for a replaced head whose log is already
known to contain no `none`. -/
theorem recvOk_head {s : State} (h : Inv s) {c : Ctx} {rest : List Ctx}
    (hc : s.contexts = c :: rest) {c2 : Ctx}
    (hok : ∀ r ∈ c2.received, r ≠ none) :
    ∀ x ∈ (c2 :: rest) ++ s.waiting.map Prod.snd, ∀ r ∈ x.received, r ≠ none := by
  intro x hx r hr
  rcases List.mem_append.1 hx with hx' | hx'
  · rcases List.mem_cons.1 hx' with rfl | hx''
    · exact hok r hr
    · refine h.recvOk x ?_ r hr
      exact List.mem_append.2 (Or.inl (by rw [hc]; exact List.mem_cons_of_mem _ hx''))
  · exact h.recvOk x (List.mem_append.2 (Or.inr hx')) r hr

/-- A `send` finding no parked waiter under its key preserves the
invariant. -/
theorem inv_branch_send_nowait {s : State} {c : Ctx} {rest : List Ctx} {tl : List Op}
    (h : Inv s) (hc : s.contexts = c :: rest) (hp : c.pendingRecv = false)
    (key msg : Nat) :
    Inv { s with messages := s.messages.push_back key msg,
                 contexts := { c with prog := tl } :: rest } := by
  have heq : (allCtxs { s with messages := s.messages.push_back key msg,
                                contexts := { c with prog := tl } :: rest }).map Ctx.id
      = (allCtxs s).map Ctx.id := by
    simp [allCtxs, hc]
  have hnb := nodup_bound_of_perm (List.Perm.of_eq heq) (Nat.le_refl _) h
  refine ⟨MLWF_push_back h.mlwf key msg, h.keyed, hnb.1, hnb.2, ?_, ?_⟩
  · exact pend_head h hc hp { c with prog := tl } rfl _
      (fun k _ hk => find_push_ne_none key msg hk)
  · refine recvOk_head h hc ?_
    intro r hr
    exact h.recvOk c
      (List.mem_append.2 (Or.inl (by rw [hc]; exact List.mem_cons_self _ _))) r hr

/-- A `send` that wakes the waiter parked under its key — enqueuing the
message first, then moving the waiter to the back of the ready queue —
preserves the invariant. -/
theorem inv_branch_send_wait {s : State} {c : Ctx} {rest : List Ctx} {tl : List Op}
    (h : Inv s) (hc : s.contexts = c :: rest) (hp : c.pendingRecv = false)
    {key : Nat} (msg : Nat) {w : Ctx} (hfw : findA key s.waiting = some w) :
    Inv { s with messages := s.messages.push_back key msg,
                 waiting := removeA key s.waiting,
                 contexts := { c with prog := tl } :: rest ++ [w] } := by
  have hwmem : (key, w) ∈ s.waiting := findA_mem hfw
  have hwid : w.id = key := h.keyed (key, w) hwmem
  have hmapeq : s.waiting.map (fun p => (Prod.snd p : Ctx).id)
      = (s.waiting.map Prod.snd).map Ctx.id := by simp
  have hkeys : (s.waiting.map Prod.fst).Nodup := by
    rw [keyed_map_fst h.keyed, hmapeq]
    exact waiting_ids_nodup h
  have hpairs : s.waiting.Perm ((key, w) :: removeA key s.waiting) :=
    perm_removeA hkeys hfw
  have hmapped : ((s.waiting.map Prod.snd).map Ctx.id).Perm
      (w.id :: ((removeA key s.waiting).map Prod.snd).map Ctx.id) := by
    have hm := hpairs.map (fun p => (Prod.snd p : Ctx).id)
    rw [hmapeq] at hm
    simpa [hwid] using hm
  have hperm : ((allCtxs { s with messages := s.messages.push_back key msg,
                                   waiting := removeA key s.waiting,
                                   contexts := { c with prog := tl } :: rest ++ [w] }).map Ctx.id).Perm
      ((allCtxs s).map Ctx.id) := by
    refine List.Perm.trans (List.Perm.of_eq (show _ = c.id :: (rest.map Ctx.id
      ++ (w.id :: ((removeA key s.waiting).map Prod.snd).map Ctx.id)) by
        simp [allCtxs, hc])) ?_
    rw [allCtxs_id_cons hc]
    exact ((hmapped.symm).append_left _).cons _
  have hnb := nodup_bound_of_perm hperm (Nat.le_refl _) h
  refine ⟨MLWF_push_back h.mlwf key msg, ?_, hnb.1, hnb.2, ?_, ?_⟩
  · intro p hp2
    exact h.keyed p (mem_removeA hp2)
  · intro x hx hpx
    rcases List.mem_cons.1 hx with rfl | hx'
    · have hp2 : c.pendingRecv = true := hpx
      rw [hp] at hp2
      cases hp2
    · rcases List.mem_append.1 hx' with hx'' | hx''
      · exact find_push_ne_none key msg
          (h.pend x (by rw [hc]; exact List.mem_cons_of_mem _ hx'') hpx)
      · have hxw : x = w := by simpa using hx''
        subst hxw
        show findA x.id (s.messages.push_back key msg).map ≠ none
        rw [hwid, find_push_self]
        simp
  · intro x hx r hr
    rcases List.mem_append.1 hx with hx' | hx'
    · rcases List.mem_cons.1 hx' with rfl | hx''
      · refine h.recvOk c ?_ r hr
        exact List.mem_append.2 (Or.inl (by rw [hc]; exact List.mem_cons_self _ _))
      · rcases List.mem_append.1 hx'' with hx3 | hx3
        · refine h.recvOk x ?_ r hr
          exact List.mem_append.2 (Or.inl (by rw [hc]; exact List.mem_cons_of_mem _ hx3))
        · have hxw : x = w := by simpa using hx3
          subst hxw
          exact h.recvOk x
            (List.mem_append.2 (Or.inr (List.mem_map_of_mem Prod.snd hwmem))) r hr
    · obtain ⟨q, hq, hqx⟩ := List.mem_map.1 hx'
      subst hqx
      exact h.recvOk q.2
        (List.mem_append.2 (Or.inr (List.mem_map_of_mem Prod.snd (mem_removeA hq)))) r hr

/-- The fast path of `recv` (a message was already buffered) preserves the
invariant. -/
theorem inv_branch_recv_fast {s : State} {c : Ctx} {rest : List Ctx} {tl : List Op}
    (h : Inv s) (hc : s.contexts = c :: rest) (hp : c.pendingRecv = false)
    (v : Nat) :
    Inv { s with messages := (s.messages.pop_front c.id).2,
                 contexts := { c with prog := tl,
                                      received := c.received ++ [some v] } :: rest } := by
  have heq : (allCtxs { s with messages := (s.messages.pop_front c.id).2,
                                contexts := { c with prog := tl,
                                                     received := c.received ++ [some v] } :: rest }).map Ctx.id
      = (allCtxs s).map Ctx.id := by
    simp [allCtxs, hc]
  have hnb := nodup_bound_of_perm (List.Perm.of_eq heq) (Nat.le_refl _) h
  refine ⟨MLWF_pop_front h.mlwf c.id, h.keyed, hnb.1, hnb.2, ?_, ?_⟩
  · exact pend_head h hc hp { c with prog := tl, received := c.received ++ [some v] } rfl _
      (fun k hk hkf => by rw [find_pop_ne _ hk]; exact hkf)
  · refine recvOk_head h hc ?_
    intro r hr
    rcases List.mem_append.1 hr with hr' | hr'
    · exact h.recvOk c
        (List.mem_append.2 (Or.inl (by rw [hc]; exact List.mem_cons_self _ _))) r hr'
    · have : r = some v := by simpa using hr'
      subst this
      simp
/-- The blocking path of `recv` (no message, other threads runnable): the
caller is parked in the waiting registry under its own id. -/
theorem inv_branch_recv_block {s : State} {c : Ctx} {rest : List Ctx} {tl : List Op}
    (h : Inv s) (hc : s.contexts = c :: rest)
    (hpop : (s.messages.pop_front c.id).1 = none) :
    Inv { s with contexts := rest,
                 messages := (s.messages.pop_front c.id).2,
                 waiting := setA c.id
                   { c with prog := tl, resumeDrain := true, pendingRecv := true }
                   s.waiting } := by
  have hm2 := pop_none_unchanged h.mlwf hpop
  rw [hm2]
  have hids := head_id_not_in h hc
  have hmapeq : s.waiting.map (fun p => (Prod.snd p : Ctx).id)
      = (s.waiting.map Prod.snd).map Ctx.id := by simp
  have hnotkeys : c.id ∉ s.waiting.map Prod.fst := by
    rw [keyed_map_fst h.keyed, hmapeq]
    exact hids.2
  rw [setA_of_not_mem _ hnotkeys]
  have hperm : ((allCtxs { s with contexts := rest,
                                  messages := s.messages,
                                  waiting := s.waiting
                                    ++ [(c.id, { c with prog := tl, resumeDrain := true, pendingRecv := true })] }).map
        Ctx.id).Perm ((allCtxs s).map Ctx.id) := by
    refine List.Perm.trans (List.Perm.of_eq (show _ = (rest.map Ctx.id
      ++ (s.waiting.map Prod.snd).map Ctx.id) ++ [c.id] by
        simp [allCtxs])) ?_
    rw [allCtxs_id_cons hc]
    exact List.perm_append_singleton _ _
  have hnb := nodup_bound_of_perm hperm (Nat.le_refl _) h
  refine ⟨h.mlwf, ?_, hnb.1, hnb.2, ?_, ?_⟩
  · intro p hp2
    rcases List.mem_append.1 hp2 with hp3 | hp3
    · exact h.keyed p hp3
    · have : p = (c.id, { c with prog := tl, resumeDrain := true, pendingRecv := true }) := by
        simpa using hp3
      subst this
      rfl
  · intro x hx hpx
    exact h.pend x (by rw [hc]; exact List.mem_cons_of_mem _ hx) hpx
  · intro x hx r hr
    rcases List.mem_append.1 hx with hx' | hx'
    · refine h.recvOk x ?_ r hr
      exact List.mem_append.2 (Or.inl (by rw [hc]; exact List.mem_cons_of_mem _ hx'))
    · rw [List.map_append] at hx'
      rcases List.mem_append.1 hx' with hx'' | hx''
      · exact h.recvOk x (List.mem_append.2 (Or.inr hx'')) r hr
      · have hxc : x = { c with prog := tl, resumeDrain := true, pendingRecv := true } := by
          simpa using hx''
        subst hxc
        refine h.recvOk c ?_ r hr
        exact List.mem_append.2 (Or.inl (by rw [hc]; exact List.mem_cons_self _ _))

/-- One `.ok` step of the runtime preserves the invariant. -/
theorem inv_step {s s2 : State} (h : Inv s) (hstep : runFront s = .ok s2) : Inv s2 := by
  obtain ⟨ctxs, w, msgs, ids0, un, cm, fr, lk, ni, ns⟩ := s
  unfold runFront at hstep
  cases ctxs with
  | nil => cases hstep
  | cons c rest =>
    obtain ⟨cid, cprog, cstack, cdrain, cpend, crecv⟩ := c
    cases cpend with
    | true =>
      cases hstep
      exact inv_branch_pending h rfl rfl
    | false =>
      cases cprog with
      | nil =>
        cases rest with
        | cons c2 r2 =>
          cases hstep
          exact inv_switchIn (inv_branch_exit h rfl _ _ _)
        | nil => cases hstep
      | cons op tl =>
        cases op with
        | yield =>
          cases hstep
          exact inv_schedule (inv_replace_head h rfl _ rfl rfl rfl)
        | spawn p =>
          cases hstep
          exact inv_schedule (inv_branch_spawn h rfl rfl p _)
        | send key msg =>
          dsimp only at hstep
          rcases hfw : findA key w with _ | w0
          · rw [hfw] at hstep
            cases hstep
            exact inv_schedule (inv_branch_send_nowait h rfl rfl key msg)
          · rw [hfw] at hstep
            cases hstep
            exact inv_schedule (inv_branch_send_wait h rfl rfl msg hfw)
        | recv =>
          dsimp only at hstep
          rcases hr : (MappedList.pop_front msgs cid).1 with _ | v
          · rw [hr] at hstep
            cases rest with
            | nil => cases hstep
            | cons c2 r2 =>
              cases hstep
              exact inv_switchIn (inv_branch_recv_block h rfl hr)
          · rw [hr] at hstep
            cases hstep
            exact inv_branch_recv_fast h rfl rfl v

/-- The invariant holds at the start of any activation from the pristine
global state. -/
theorem inv_boot (prog : List Op) : Inv (switchIn (boot emptyG prog)) := by
  refine inv_switchIn ⟨?_, ?_, ?_, ?_, ?_, ?_⟩
  · intro p hp
    simp [boot, emptyG, MappedList.new] at hp
  · intro p hp
    simp [boot, emptyG] at hp
  · simp [allCtxs, boot, emptyG, freshCtx]
  · intro x hx
    have hxe : x = freshCtx 0 0 prog := by simpa [allCtxs, boot, emptyG] using hx
    subst hxe
    simp [freshCtx, boot, emptyG]
  · intro x hx hpx
    have hxe : x = freshCtx 0 0 prog := by simpa [boot, emptyG] using hx
    subst hxe
    simp [freshCtx] at hpx
  · intro x hx r hr
    have hxe : x = freshCtx 0 0 prog := by simpa [allCtxs, boot, emptyG] using hx
    subst hxe
    simp [freshCtx] at hr

/-- The invariant is preserved along any `.ok` run. -/
theorem inv_runN {n : Nat} {s s2 : State} (h : Inv s) (hrun : runN n s = .ok s2) :
    Inv s2 := by
  induction n generalizing s with
  | zero =>
    cases hrun
    exact h
  | succ n ih =>
    unfold runN at hrun
    cases hr : runFront s with
    | ok s3 =>
      rw [hr] at hrun
      exact ih (inv_step h hr) hrun
    | done s3 =>
      rw [hr] at hrun
      cases hrun
    | fatal p =>
      rw [hr] at hrun
      cases hrun

/-! ### Claim C1: the message is enqueued before the waiter is requeued,
so a woken receiver always finds its message -/

/-- C1: in any reachable state of any activation, a thread at the front of
the ready queue that was parked by a blocking `recv` and has since been
requeued (its receive is still pending) finds its mailbox nonempty — the
`send` that woke it enqueued the message before moving it out of the
waiting registry, and nothing else may pop that mailbox — and the step it
takes pops that message and returns it from `recv` (appending `some` of it
to its receive log). -/
theorem send_wakeup_delivers (prog : List Op) (n : Nat) (s : State) (c : Ctx)
    (rest : List Ctx)
    (hrun : runN n (switchIn (boot emptyG prog)) = .ok s)
    (hc : s.contexts = c :: rest) (hp : c.pendingRecv = true) :
    ((s.messages.pop_front c.id).1).isSome = true ∧
    runFront s = .ok { s with
      contexts := { c with pendingRecv := false,
                           received := c.received ++ [(s.messages.pop_front c.id).1] } :: rest,
      messages := (s.messages.pop_front c.id).2 } := by
  have hinv : Inv s := inv_runN (inv_boot prog) hrun
  have hfind : findA c.id s.messages.map ≠ none :=
    hinv.pend c (by rw [hc]; exact List.mem_cons_self _ _) hp
  have hsome := pop_fst_ne_none hinv.mlwf hfind
  constructor
  · exact Option.ne_none_iff_isSome.1 hsome
  · simp [runFront, hc, hp]

/-- Witness for C1: four steps into `progA` the main thread has been woken
by the send to its id; its pending receive pops `some` message. -/
theorem send_wakeup_delivers_witness :
    ((stA4.messages.pop_front ctxA4.id).1).isSome = true ∧
    runFront stA4 = .ok { stA4 with
      contexts := { ctxA4 with pendingRecv := false,
                               received := ctxA4.received
                                 ++ [(stA4.messages.pop_front ctxA4.id).1] } :: stA4.contexts.tail,
      messages := (stA4.messages.pop_front ctxA4.id).2 } :=
  send_wakeup_delivers progA 4 stA4 ctxA4 stA4.contexts.tail rfl rfl rfl

/-! ### Claim C10: recv never returns None -/

/-- C10: in any reachable state of any activation, every value any `recv`
call has returned — on the fast path or after blocking — is `some` message,
never `none`, in every context of the ready queue and the waiting
registry. -/
theorem recv_never_returns_none (prog : List Op) (n : Nat) (s : State)
    (hrun : runN n (switchIn (boot emptyG prog)) = .ok s) :
    ∀ c ∈ allCtxs s, ∀ r ∈ c.received, r ≠ none :=
  (inv_runN (inv_boot prog) hrun).recvOk

/-- Witness for C10: five steps into `progA` the main thread has completed
its `recv`, and the logged return value is not `none`. -/
theorem recv_never_returns_none_witness :
    (stA5.contexts.headD (freshCtx 0 0 [])).received.headD none ≠ none :=
  recv_never_returns_none progA 5 stA5 rfl
    (stA5.contexts.headD (freshCtx 0 0 []))
    (List.mem_cons_self _ _)
    ((stA5.contexts.headD (freshCtx 0 0 [])).received.headD none)
    (List.mem_cons_self _ _)

/-! ### Claim C7: deferred stack reclamation (the slot can be overwritten) -/

/-- C7 (refuting evaluation): in `progB` the first thread exits while the
next thread to run is freshly spawned; that fresh thread starts directly at
`entry_point` — which performs no drain — and exits immediately, so its own
stack is stored into the still-occupied deferred-free slot. The first
thread's stack (allocation `0`) is overwritten out of the slot: its guard
page is never restored and its memory is never released (it is absent from
`freed` at teardown), contradicting the claim that an exited thread's stack
is reclaimed no later than the next context switch onto a different stack
and that the slot never silently drops a stack. -/
theorem deferred_free_slot_overwrite_leaks_stack :
    ∃ f : State, spawn_from_main emptyG progB 5 = .done f ∧
      f.leaked = [0] ∧ f.freed = [2, 1] ∧ 0 ∉ f.freed := by
  refine ⟨okOf (spawn_from_main emptyG progB 5), rfl, rfl, rfl, ?_⟩
  show 0 ∉ [2, 1]
  decide

end Green
